import Mathlib

/-!
# Verification of the fnr match-collection, decision and rewrite engine

Shallow embedding of the core of `fnr` (recursive find-and-replace):

* `src/search.rs` — `MatchCollector`, a state machine turning the stream of
  per-line search-sink events into discrete `Match` records;
* `src/main.rs` / `src/replace.rs` — `ReplacementDecider` (decision policy),
  `consume_matches` (per-file orchestrator) and `apply_replacements` /
  `Replacer::apply` (the line-exact file rewriter).

File contents are modelled as the list of physical-line chunks that
`BufRead::read_line` produces (each chunk carries its `\n` terminator).
The interactive channel (stdin) is modelled as the list of lines still
available to be read; an exhausted channel corresponds to end-of-file on
stdin.  Rust panics (`panic!`, and the panic raised by `text_io::read!`
when the input stream is exhausted) are modelled as `Option.none` /
`Except.error` outcomes, since a panic aborts the processing pass before
any later effect (in particular before the temp-file rename).
-/

namespace Fnr

/-- A physical line: 1-based line number and full text including its
terminator.  Mirrors `search.rs` `pub struct Line(pub u64, pub String)`
(the `u64` is modelled as `Nat`). -/
structure Line where
  number : Nat
  text : String
  deriving DecidableEq, Repr

/-- A collected match: the matched line plus its bounded pre/post context.
Mirrors `search.rs` `pub struct Match`. -/
structure Match where
  line : Line
  context_pre : List Line
  context_post : List Line
  deriving DecidableEq, Repr

/-- Mirrors `search.rs` `enum MatchState { Before, Match, After }`. -/
inductive MatchState where
  | Before
  | Match
  | After
  deriving DecidableEq, Repr

/-- Mirrors `search.rs` `struct MatchCollector`. -/
structure MatchCollector where
  state : MatchState
  cur_context_pre : List Line
  cur_context_post : List Line
  cur_match_line : Option Line
  matches' : List Match  -- source field `matches` (primed: `matches` is a Lean keyword)
  deriving DecidableEq, Repr

/-- Mirrors `MatchCollector::new`. -/
def MatchCollector.new : MatchCollector :=
  { state := .Before
    cur_context_pre := []
    cur_context_post := []
    cur_match_line := none
    matches' := [] }

/-- Mirrors `MatchCollector::maybe_emit` (search.rs:47-66): if a match line
is pending, move it together with the context buffers into the output list,
clear the buffers and set the state back to `Before`; otherwise do nothing. -/
def maybeEmit (c : MatchCollector) : MatchCollector :=
  match c.cur_match_line with
  | none => c
  | some line =>
    { state := .Before
      cur_context_pre := []
      cur_context_post := []
      cur_match_line := none
      matches' := c.matches' ++
        [{ line := line
           context_pre := c.cur_context_pre
           context_post := c.cur_context_post }] }

/-- Mirrors `MatchCollector::transition` (search.rs:68-83).  Note that the
four emitting arms call `maybe_emit` only; they do not assign `next` to
`self.state` (only `maybe_emit` touches the state, resetting it to
`Before`). -/
def transition (c : MatchCollector) (next : MatchState) : MatchCollector :=
  match c.state, next with
  | .Match, .Before => maybeEmit c
  | .Match, .Match => maybeEmit c
  | .After, .Before => maybeEmit c
  | .After, .Match => maybeEmit c
  | _, _ => { c with state := next }

/-- One event of the per-file line-event stream fed to the collector by the
grep searcher: the sink callbacks `matched` (a matching line),
`context` with kind `Before` / `After`, or `context` with kind `Other`
(ignored by the collector, search.rs:134). -/
inductive Event where
  | matchLine (number : Nat) (text : String)
  | contextBefore (number : Nat) (text : String)
  | contextAfter (number : Nat) (text : String)
  | contextOther (number : Nat) (text : String)
  deriving DecidableEq, Repr

/-- The line number an event carries. -/
def eventNum : Event → Nat
  | .matchLine n _ => n
  | .contextBefore n _ => n
  | .contextAfter n _ => n
  | .contextOther n _ => n

/-- One sink callback of `MatchCollector` (search.rs:95-139): `matched`
first runs `transition(Match)` and then overwrites `cur_match_line`;
`context` runs the corresponding transition and then pushes the line onto
the pre/post buffer; kind `Other` does nothing. -/
def step (c : MatchCollector) (e : Event) : MatchCollector :=
  match e with
  | .matchLine n t =>
    let c' := transition c .Match
    { c' with cur_match_line := some ⟨n, t⟩ }
  | .contextBefore n t =>
    let c' := transition c .Before
    { c' with cur_context_pre := c'.cur_context_pre ++ [⟨n, t⟩] }
  | .contextAfter n t =>
    let c' := transition c .After
    { c' with cur_context_post := c'.cur_context_post ++ [⟨n, t⟩] }
  | .contextOther _ _ => c

/-- Mirrors `MatchCollector::collect` (search.rs:85-92): a final
`maybe_emit`, then the accumulated matches are handed out. -/
def collect (c : MatchCollector) : List Match :=
  (maybeEmit c).matches'

/-- Mirrors `RegexSearcher::search_path` (search.rs:147-155): feed the
file's whole event stream to a fresh collector, then `collect`. -/
def runCollector (es : List Event) : List Match :=
  collect (es.foldl step MatchCollector.new)

/-! ## The file rewriter (`apply_replacements` in main.rs, `Replacer::apply`
in replace.rs — the two loops are identical except that replace.rs
additionally counts `num_replaced`). -/

/-- Mirrors `struct MatchReplacement` (main.rs:381-384 / replace.rs:16-19). -/
structure MatchReplacement where
  search_match : Match
  replacement : String
  deriving DecidableEq, Repr

/-- The read/compare/write loop of `apply_replacements` (main.rs:467-489)
and `Replacer::apply` (replace.rs:213-245).  The first argument is the list
of physical-line chunks `read_line` still has to produce, `lineNum` is the
counter before the increment at the top of the iteration, and the third
argument is the remaining replacement slice.  The result is the list of
chunks written to the temp file; `none` models the
`panic!("reached EOF with remaining replacements")` hit when end-of-file is
reached with a non-empty replacement list. -/
def applyLoop : List String → Nat → List MatchReplacement → Option (List String)
  | [], _, [] => some []
  | [], _, _ :: _ => none
  | l :: ls, lineNum, [] =>
    (applyLoop ls (lineNum + 1) []).map (fun out => l :: out)
  | l :: ls, lineNum, r :: rs =>
    if r.search_match.line.number = lineNum + 1 then
      (applyLoop ls (lineNum + 1) rs).map (fun out => r.replacement :: out)
    else
      (applyLoop ls (lineNum + 1) (r :: rs)).map (fun out => l :: out)

/-- `apply_replacements(path, replacements)` / `Replacer::apply`: run the
loop from `line_num = 0` over the whole file. -/
def apply (fileLines : List String) (repls : List MatchReplacement) :
    Option (List String) :=
  applyLoop fileLines 0 repls

/-- The content at `path` after the call: `fs::rename(dst_path, path)`
(main.rs:491 / replace.rs:247) runs only when the loop completed without
panicking, so on the panic path the original lines survive unchanged. -/
def fileAfterApply (fileLines : List String) (repls : List MatchReplacement) :
    List String :=
  (apply fileLines repls).getD fileLines

/-- First replacement registered for physical line `n` (the loop consumes
the head when its `search_match.line.0` equals the line counter). -/
def lookupRepl (repls : List MatchReplacement) (n : Nat) : Option String :=
  (repls.find? (fun r => r.search_match.line.number == n)).map
    (fun r => r.replacement)

/-- Number of `\n` bytes in a string. -/
def newlineCount (s : String) : Nat := s.toList.count '\n'

/-- A chunk that is exactly one newline-terminated physical line. -/
def isSingleLine (s : String) : Bool :=
  s.endsWith "\n" && newlineCount s == 1

/-- The file's byte content: the concatenation of its chunks. -/
def fileContent (fileLines : List String) : String := String.join fileLines

/-! ## The decision policy (`ReplacementDecider`, main.rs:517-589; the
replace.rs enum variant `Constantly`/`WithPrompt` has the same behaviour,
with `Constantly d` corresponding to `global_decision = some d`). -/

/-- Mirrors `enum ReplacementDecision` (main.rs:502-508). -/
inductive ReplacementDecision where
  | Accept
  | Ignore
  | Edit
  | Terminate
  deriving DecidableEq, Repr

/-- An aborted processing pass.  `eofPanic` models the panic raised by
`text_io::read!("{}\n")` (an internal `try_read!().unwrap()`) when stdin is
exhausted — `read_input` (main.rs:510-515 / replace.rs:281-286) has no
other way to observe end-of-input.  `invalidStatePanic` is the
`panic!("[bug] invalid state ...")` in `decide` (main.rs:548), and
`remainingReplacementsPanic` the `panic!("reached EOF with remaining
replacements")` in the rewriter. -/
inductive RunError where
  | eofPanic
  | invalidStatePanic
  | remainingReplacementsPanic
  deriving DecidableEq, Repr

/-- Mirrors `read_input` (main.rs:510-515): returns the next line of the
interactive channel; an exhausted channel makes `read!` panic. -/
def readInput : List String → Except RunError (String × List String)
  | [] => .error .eofPanic
  | l :: rest => .ok (l, rest)

/-- Mirrors `struct ReplacementDecider` (main.rs:517-522). -/
structure ReplacementDecider where
  should_prompt : Bool
  global_decision : Option ReplacementDecision
  local_decision : Option ReplacementDecision
  deriving DecidableEq, Repr

/-- Mirrors `ReplacementDecider::reset_local_decision` (main.rs:536-538)
(`ReplacementDecider::reset` in replace.rs). -/
def resetLocalDecision (st : ReplacementDecider) : ReplacementDecider :=
  { st with local_decision := none }

/-- Mirrors `ReplacementDecider::prompt_for_decision` (main.rs:554-588):
read lines from the channel until a recognized token arrives; `a` and `d`
additionally set the local (per-file) decision; any other line (including
`?`) prints the help text and re-prompts. -/
def promptForDecision (st : ReplacementDecider) :
    List String → Except RunError (ReplacementDecision × ReplacementDecider × List String)
  | [] => .error .eofPanic
  | line :: rest =>
    match line with
    | "y" => .ok (.Accept, st, rest)
    | "n" => .ok (.Ignore, st, rest)
    | "q" => .ok (.Terminate, st, rest)
    | "a" => .ok (.Accept, { st with local_decision := some .Accept }, rest)
    | "d" => .ok (.Ignore, { st with local_decision := some .Ignore }, rest)
    | "e" => .ok (.Edit, st, rest)
    | _ => promptForDecision st rest

/-- Mirrors `ReplacementDecider::decide` (main.rs:540-552): a global
decision wins, then a local one, both without touching the channel;
otherwise prompt (or panic when prompting is disabled). -/
def decide (st : ReplacementDecider) (input : List String) :
    Except RunError (ReplacementDecision × ReplacementDecider × List String) :=
  match st.global_decision with
  | some g => .ok (g, st, input)
  | none =>
    match st.local_decision with
    | some l => .ok (l, st, input)
    | none =>
      if st.should_prompt then promptForDecision st input
      else .error .invalidStatePanic

/-! ## The per-file orchestrator (`MatchProcessor::consume_matches`,
main.rs:402-457; `Replacer::consume_matches` in replace.rs behaves the
same, signalling halt through `*should_quit` instead of `Ok(false)`).
The regex capture/interpolation collaborator
(`RegexReplacer::replace`) is passed in as an opaque `replaceFn`. -/

/-- The `for m in matches` loop of `consume_matches` (main.rs:416-450)
followed by the final conditional `apply_replacements` call
(main.rs:452-456).  Returns `(shouldContinue, content now at path, final
decider, remaining channel)`. -/
def consumeLoop (replaceFn : String → String) (fileLines : List String) :
    ReplacementDecider → List Match → List String → List MatchReplacement →
    Except RunError (Bool × List String × ReplacementDecider × List String)
  | st, [], input, acc =>
    if acc.isEmpty then .ok (true, fileLines, st, input)
    else
      match apply fileLines acc with
      | some out => .ok (true, out, st, input)
      | none => .error .remainingReplacementsPanic
  | st, m :: ms, input, acc =>
    let replacement := replaceFn m.line.text
    match decide st input with
    | .error e => .error e
    | .ok (d, st', input') =>
      match d with
      | .Accept =>
        consumeLoop replaceFn fileLines st' ms input'
          (acc ++ [⟨m, replacement⟩])
      | .Ignore => consumeLoop replaceFn fileLines st' ms input' acc
      | .Edit =>
        match readInput input' with
        | .error e => .error e
        | .ok (line, input'') =>
          if line = "" then consumeLoop replaceFn fileLines st' ms input'' acc
          else
            consumeLoop replaceFn fileLines st' ms input''
              (acc ++ [⟨m, line ++ "\n"⟩])
      | .Terminate => .ok (false, fileLines, st', input')

/-- Mirrors `consume_matches` (main.rs:402-457): empty match list is a
no-op; otherwise the local decision is reset and the match loop runs with
an empty replacement list. -/
def consumeMatches (replaceFn : String → String) (st : ReplacementDecider)
    (fileLines : List String) (ms : List Match) (input : List String) :
    Except RunError (Bool × List String × ReplacementDecider × List String) :=
  if ms.isEmpty then .ok (true, fileLines, st, input)
  else consumeLoop replaceFn fileLines (resetLocalDecision st) ms input []

/-! ## Well-formedness of a searcher event stream and the collector
invariant (claim C4).

The grep searcher (the `LineSearchEngine` collaborator) emits each line of
a file at most once, in ascending order of line numbers; after-context
lines directly follow their match (possibly after other after-context
lines), never a before-context line; and a before-context line is only
emitted because a match follows further down. -/

/-- Is the event a `matched` sink call? -/
def isMatchLine : Event → Bool
  | .matchLine _ _ => true
  | _ => false

/-- Is the event a context event of kind `Other`? -/
def isOther : Event → Bool
  | .contextOther _ _ => true
  | _ => false

/-- Line numbers of the events are strictly ascending. -/
def eventsIncr (es : List Event) : Prop :=
  es.Pairwise (fun a b => eventNum a < eventNum b)

/-- Scan checking that every after-context event directly follows a match
or another after-context event.  The flag records whether the previous
event was a match/after-context event. -/
def afterScan : Bool → List Event → Bool
  | _, [] => true
  | _, .matchLine _ _ :: rest => afterScan true rest
  | flag, .contextAfter _ _ :: rest => flag && afterScan true rest
  | _, .contextBefore _ _ :: rest => afterScan false rest
  | flag, .contextOther _ _ :: rest => afterScan flag rest

/-- Every before-context event is followed by a later match event. -/
def beforesClosed : List Event → Bool
  | [] => true
  | .contextBefore _ _ :: rest => rest.any isMatchLine && beforesClosed rest
  | _ :: rest => beforesClosed rest

/-- A per-file event stream as the grep searcher produces it: positive,
strictly ascending line numbers; after-context only directly after a
match/after-context event; no dangling before-context; and no `Other`
context events (the searcher is not in passthru mode). -/
def WfStream (es : List Event) : Prop :=
  eventsIncr es ∧
  (∀ e ∈ es, 0 < eventNum e) ∧
  afterScan false es = true ∧
  beforesClosed es = true ∧
  (∀ e ∈ es, isOther e = false)

/-- Context line numbers strictly ascending. -/
def linesIncr (ls : List Line) : Prop :=
  ls.Pairwise (fun a b => a.number < b.number)

/-- The per-record invariant claimed by the spec: pre-context strictly
ascending below the match line, post-context strictly ascending above it. -/
def GoodMatch (m : Match) : Prop :=
  linesIncr m.context_pre ∧ linesIncr m.context_post ∧
  (∀ l ∈ m.context_pre, l.number < m.line.number) ∧
  (∀ l ∈ m.context_post, m.line.number < l.number)

/-- The per-file invariant: every record is good and the primary line
numbers are strictly ascending (hence pairwise distinct). -/
def GoodMatches (ms : List Match) : Prop :=
  (∀ m ∈ ms, GoodMatch m) ∧
  ms.Pairwise (fun a b => a.line.number < b.line.number)

/-- Primary line numbers of the already-emitted records. -/
def primaries (ms : List Match) : List Nat := ms.map (fun m => m.line.number)

/-- State-dependent part of the collector invariant.  `flag` is the
`afterScan` flag (true iff the previous event was a match or
after-context event), `rest` the not-yet-consumed events. -/
def StateInv (c : MatchCollector) (flag : Bool) (rest : List Event) : Prop :=
  match c.state, c.cur_match_line with
  | .Before, none => c.cur_context_post = [] ∧ flag = false
  | .Before, some m =>
    c.cur_context_post = [] ∧
    (∀ p ∈ c.cur_context_pre, m.number < p.number) ∧
    (flag = true → c.cur_context_pre = []) ∧
    (c.cur_context_pre ≠ [] → rest.any isMatchLine = true) ∧
    (∀ k ∈ primaries c.matches', k < m.number)
  | .Match, none => False
  | .Match, some m =>
    c.cur_context_post = [] ∧
    (∀ p ∈ c.cur_context_pre, p.number < m.number) ∧
    (∀ k ∈ primaries c.matches', k < m.number)
  | .After, none => False
  | .After, some m =>
    (∀ p ∈ c.cur_context_pre, p.number < m.number) ∧
    (∀ q ∈ c.cur_context_post, m.number < q.number) ∧
    (∀ k ∈ primaries c.matches', k < m.number)

instance (ls : List Line) : Decidable (linesIncr ls) := by
  unfold linesIncr; infer_instance

instance (m : Match) : Decidable (GoodMatch m) := by
  unfold GoodMatch; infer_instance

instance (ms : List Match) : Decidable (GoodMatches ms) := by
  unfold GoodMatches; infer_instance

instance (es : List Event) : Decidable (eventsIncr es) := by
  unfold eventsIncr; infer_instance

instance (es : List Event) : Decidable (WfStream es) := by
  unfold WfStream; infer_instance

/-- The full collector invariant.  `b` bounds every line number the
collector still holds in a mutable buffer (numbers of events already
consumed); the frozen `matches'` list only needs its primaries bounded. -/
def Inv (c : MatchCollector) (flag : Bool) (b : Nat) (rest : List Event) : Prop :=
  GoodMatches c.matches' ∧
  linesIncr c.cur_context_pre ∧
  linesIncr c.cur_context_post ∧
  (∀ l ∈ c.cur_context_pre, l.number ≤ b) ∧
  (∀ l ∈ c.cur_context_post, l.number ≤ b) ∧
  (∀ m, c.cur_match_line = some m → m.number ≤ b) ∧
  (∀ k ∈ primaries c.matches', k ≤ b) ∧
  StateInv c flag rest

/-! ## Basic lemmas about the rewriter loop -/

theorem applyLoop_nil (ls : List String) (n : Nat) : applyLoop ls n [] = some ls := by
  induction ls generalizing n with
  | nil => rfl
  | cons l ls ih => simp [applyLoop, ih]

theorem applyLoop_length (ls : List String) (n : Nat) (repls : List MatchReplacement)
    (out : List String) (h : applyLoop ls n repls = some out) :
    out.length = ls.length := by
  induction ls generalizing n repls out with
  | nil =>
    cases repls with
    | nil => simp [applyLoop] at h; simp [← h]
    | cons r rs => simp [applyLoop] at h
  | cons l ls ih =>
    cases repls with
    | nil =>
      simp only [applyLoop, Option.map_eq_some'] at h
      obtain ⟨o, ho, rfl⟩ := h
      simp [ih _ _ _ ho]
    | cons r rs =>
      simp only [applyLoop] at h
      split at h <;>
        · simp only [Option.map_eq_some'] at h
          obtain ⟨o, ho, rfl⟩ := h
          simp [ih _ _ _ ho]

theorem applyLoop_upper (ls : List String) (n : Nat) (repls : List MatchReplacement)
    (out : List String) (h : applyLoop ls n repls = some out) :
    ∀ r ∈ repls, r.search_match.line.number ≤ n + ls.length := by
  induction ls generalizing n repls out with
  | nil =>
    cases repls with
    | nil => simp
    | cons r rs => simp [applyLoop] at h
  | cons l ls ih =>
    cases repls with
    | nil => simp
    | cons r rs =>
      simp only [applyLoop] at h
      split at h
      case isTrue heq =>
        simp only [Option.map_eq_some'] at h
        obtain ⟨o, ho, rfl⟩ := h
        intro r' hr'
        rcases List.mem_cons.mp hr' with rfl | hmem
        · simp only [heq, List.length_cons]; omega
        · have := ih _ _ _ ho r' hmem
          simp only [List.length_cons] at this ⊢; omega
      case isFalse heq =>
        simp only [Option.map_eq_some'] at h
        obtain ⟨o, ho, rfl⟩ := h
        intro r' hr'
        have := ih _ _ _ ho r' hr'
        simp only [List.length_cons] at this ⊢; omega

theorem applyLoop_mem (ls : List String) (n : Nat) (repls : List MatchReplacement)
    (out : List String) (h : applyLoop ls n repls = some out) :
    ∀ x ∈ out, x ∈ ls ∨ ∃ r ∈ repls, x = r.replacement := by
  induction ls generalizing n repls out with
  | nil =>
    cases repls with
    | nil => simp [applyLoop] at h; simp [← h]
    | cons r rs => simp [applyLoop] at h
  | cons l ls ih =>
    cases repls with
    | nil =>
      simp only [applyLoop, Option.map_eq_some'] at h
      obtain ⟨o, ho, rfl⟩ := h
      intro x hx
      rcases List.mem_cons.mp hx with rfl | hx
      · simp
      · rcases ih _ _ _ ho x hx with hmem | hrep
        · exact Or.inl (List.mem_cons_of_mem _ hmem)
        · exact Or.inr hrep
    | cons r rs =>
      simp only [applyLoop] at h
      split at h
      case isTrue heq =>
        simp only [Option.map_eq_some'] at h
        obtain ⟨o, ho, rfl⟩ := h
        intro x hx
        rcases List.mem_cons.mp hx with rfl | hx
        · exact Or.inr ⟨r, by simp⟩
        · rcases ih _ _ _ ho x hx with hmem | ⟨r', hr', hx'⟩
          · exact Or.inl (List.mem_cons_of_mem _ hmem)
          · exact Or.inr ⟨r', List.mem_cons_of_mem _ hr', hx'⟩
      case isFalse heq =>
        simp only [Option.map_eq_some'] at h
        obtain ⟨o, ho, rfl⟩ := h
        intro x hx
        rcases List.mem_cons.mp hx with rfl | hx
        · simp
        · rcases ih _ _ _ ho x hx with hmem | ⟨r', hr', hx'⟩
          · exact Or.inl (List.mem_cons_of_mem _ hmem)
          · exact Or.inr ⟨r', hr', hx'⟩

theorem lookupRepl_eq_none (repls : List MatchReplacement) (k : Nat)
    (h : ∀ r ∈ repls, k < r.search_match.line.number) :
    lookupRepl repls k = none := by
  simp only [lookupRepl, Option.map_eq_none', List.find?_eq_none]
  intro r hr
  have := h r hr
  simp only [beq_iff_eq]
  omega

/-- Main correctness lemma for the rewriter loop: with strictly ascending
replacement line numbers lying in the window of the remaining lines, the
loop succeeds, keeps the line count, and rewrites exactly the referenced
lines. -/
theorem applyLoop_spec (ls : List String) (n : Nat) (repls : List MatchReplacement)
    (hasc : repls.Pairwise
      (fun a b => a.search_match.line.number < b.search_match.line.number))
    (hin : ∀ r ∈ repls,
      n < r.search_match.line.number ∧ r.search_match.line.number ≤ n + ls.length) :
    ∃ out, applyLoop ls n repls = some out ∧ out.length = ls.length ∧
      ∀ i < ls.length,
        out.getD i "" = (lookupRepl repls (n + 1 + i)).getD (ls.getD i "") := by
  induction ls generalizing n repls with
  | nil =>
    cases repls with
    | nil => exact ⟨[], rfl, rfl, by simp⟩
    | cons r rs =>
      have := hin r (by simp)
      simp at this
      omega
  | cons l ls ih =>
    cases repls with
    | nil =>
      exact ⟨l :: ls, applyLoop_nil _ _, rfl, by intro i hi; simp [lookupRepl]⟩
    | cons r rs =>
      by_cases heq : r.search_match.line.number = n + 1
      · have hrs_asc := hasc.of_cons
        have hhead := List.pairwise_cons.mp hasc |>.1
        have hside : ∀ r' ∈ rs, n + 1 < r'.search_match.line.number ∧
            r'.search_match.line.number ≤ n + 1 + ls.length := by
          intro r' hr'
          have := hhead r' hr'
          have hup := hin r' (List.mem_cons_of_mem _ hr')
          constructor
          · omega
          · simp only [List.length_cons] at hup ⊢; omega
        obtain ⟨out, hout, hlen, hidx⟩ := ih (n + 1) rs hrs_asc hside
        refine ⟨r.replacement :: out,
          by simp [applyLoop, heq, hout], by simp [hlen], ?_⟩
        intro i hi
        cases i with
        | zero => simp [lookupRepl, heq]
        | succ j =>
          have hj : j < ls.length := by simpa using hi
          have hrec := hidx j hj
          have hskip : lookupRepl (r :: rs) (n + 1 + (j + 1)) =
              lookupRepl rs (n + 1 + (j + 1)) := by
            simp only [lookupRepl, List.find?_cons]
            have : (r.search_match.line.number == n + 1 + (j + 1)) = false := by
              simp only [beq_eq_false_iff_ne, ne_eq]
              omega
            rw [this]
          rw [hskip]
          have harith : n + 1 + (j + 1) = n + 1 + 1 + j := by omega
          rw [harith]
          simpa using hrec
      · have hside : ∀ r' ∈ r :: rs, n + 1 < r'.search_match.line.number ∧
            r'.search_match.line.number ≤ n + 1 + ls.length := by
          intro r' hr'
          have hup := hin r' hr'
          rcases List.mem_cons.mp hr' with rfl | hmem
          · constructor
            · omega
            · simp only [List.length_cons] at hup ⊢; omega
          · have h1 := (hin r (by simp)).1
            have h2 := (List.pairwise_cons.mp hasc).1 r' hmem
            constructor
            · omega
            · simp only [List.length_cons] at hup ⊢; omega
        obtain ⟨out, hout, hlen, hidx⟩ := ih (n + 1) (r :: rs) hasc hside
        refine ⟨l :: out, by simp [applyLoop, heq, hout], by simp [hlen], ?_⟩
        intro i hi
        cases i with
        | zero =>
          have hnone : lookupRepl (r :: rs) (n + 1) = none := by
            apply lookupRepl_eq_none
            intro r' hr'
            rcases List.mem_cons.mp hr' with rfl | hmem
            · have := (hin r' (by simp)).1
              omega
            · have h1 := (hin r (by simp)).1
              have h2 := (List.pairwise_cons.mp hasc).1 r' hmem
              omega
          simp [hnone]
        | succ j =>
          have hj : j < ls.length := by simpa using hi
          have hrec := hidx j hj
          have harith : n + 1 + (j + 1) = n + 1 + 1 + j := by omega
          rw [harith]
          simpa using hrec

/-! ## Newline counting -/

theorem newlineCount_append (a b : String) :
    newlineCount (a ++ b) = newlineCount a + newlineCount b := by
  simp [newlineCount, String.toList]

theorem newlineCount_foldl (l : List String) (acc : String) :
    newlineCount (l.foldl (· ++ ·) acc) =
      newlineCount acc + (l.map newlineCount).sum := by
  induction l generalizing acc with
  | nil => simp
  | cons s l ih => simp [ih, newlineCount_append]; omega

theorem newlineCount_fileContent (l : List String) :
    newlineCount (fileContent l) = (l.map newlineCount).sum := by
  have hempty : newlineCount "" = 0 := by decide
  simp [fileContent, String.join, newlineCount_foldl, hempty]

theorem sum_map_eq_length (l : List String) (f : String → Nat)
    (h : ∀ x ∈ l, f x = 1) : (l.map f).sum = l.length := by
  induction l with
  | nil => simp
  | cons x l ih =>
    simp [h x (by simp), ih (fun y hy => h y (List.mem_cons_of_mem _ hy))]
    omega

/-! ## Collector invariant lemmas (claim C4) -/

theorem linesIncr_concat (ls : List Line) (x : Line) (h1 : linesIncr ls)
    (h2 : ∀ l ∈ ls, l.number < x.number) : linesIncr (ls ++ [x]) := by
  rw [linesIncr, List.pairwise_append]
  refine ⟨h1, List.pairwise_singleton _ _, ?_⟩
  intro a ha bb hbb
  simp at hbb
  subst hbb
  exact h2 a ha

theorem primaries_concat (ms : List Match) (mm : Match) :
    primaries (ms ++ [mm]) = primaries ms ++ [mm.line.number] := by
  simp [primaries]

theorem goodMatches_concat (ms : List Match) (mm : Match) (h1 : GoodMatches ms)
    (h2 : GoodMatch mm) (h3 : ∀ k ∈ primaries ms, k < mm.line.number) :
    GoodMatches (ms ++ [mm]) := by
  obtain ⟨ha, hp⟩ := h1
  constructor
  · intro m hm
    rcases List.mem_append.mp hm with hm | hm
    · exact ha m hm
    · simp at hm
      subst hm
      exact h2
  · rw [List.pairwise_append]
    refine ⟨hp, List.pairwise_singleton _ _, ?_⟩
    intro a ha' bb hbb
    simp at hbb
    subst hbb
    exact h3 _ (List.mem_map_of_mem _ ha')

/-- End-of-stream case: the final `collect` only emits a good record. -/
theorem collect_good (st : MatchState) (pre post : List Line) (pend : Option Line)
    (ms : List Match) (flag : Bool) (b : Nat)
    (hInv : Inv ⟨st, pre, post, pend, ms⟩ flag b []) :
    GoodMatches (collect ⟨st, pre, post, pend, ms⟩) := by
  obtain ⟨hGM, hIncPre, hIncPost, hPreB, hPostB, hPendB, hPrimB, hSt⟩ := hInv
  cases pend with
  | none => simpa [collect, maybeEmit] using hGM
  | some m =>
    simp only [StateInv] at hSt
    cases st with
    | Before =>
      obtain ⟨hpost, hcontam, hflag, hany, hprim⟩ := hSt
      have hpre : pre = [] := by
        by_contra hne
        have := hany hne
        simp at this
      subst hpost hpre
      simp only [collect, maybeEmit]
      exact goodMatches_concat _ _ hGM
        (by simp [GoodMatch, linesIncr]) hprim
    | Match =>
      obtain ⟨hpost, hpre, hprim⟩ := hSt
      subst hpost
      simp only [collect, maybeEmit]
      exact goodMatches_concat _ _ hGM
        ⟨hIncPre, by simp [linesIncr], hpre, by simp⟩ hprim
    | After =>
      obtain ⟨hpre, hpost, hprim⟩ := hSt
      simp only [collect, maybeEmit]
      exact goodMatches_concat _ _ hGM ⟨hIncPre, hIncPost, hpre, hpost⟩ hprim

/-- Invariant preservation for a `matched` sink call. -/
theorem inv_step_match (st : MatchState) (pre post : List Line) (pend : Option Line)
    (ms : List Match) (flag : Bool) (b n : Nat) (t : String) (rest : List Event)
    (hInv : Inv ⟨st, pre, post, pend, ms⟩ flag b (Event.matchLine n t :: rest))
    (hb : b < n) :
    Inv (step ⟨st, pre, post, pend, ms⟩ (.matchLine n t)) true n rest := by
  obtain ⟨hGM, hIncPre, hIncPost, hPreB, hPostB, hPendB, hPrimB, hSt⟩ := hInv
  simp only [StateInv] at hSt
  cases pend with
  | none =>
    cases st with
    | Before =>
      obtain ⟨hpost, hflag⟩ := hSt
      subst hpost
      simp only [step, transition, Inv, StateInv, maybeEmit]
      refine ⟨hGM, hIncPre, by simp [linesIncr], ?_, by simp, ?_, ?_, trivial, ?_, ?_⟩
      · intro l hl
        have := hPreB l hl
        omega
      · intro m' hm'
        cases hm'
        simp
      · intro k hk
        have := hPrimB k hk
        omega
      · intro p hp
        have := hPreB p hp
        omega
      · intro k hk
        have := hPrimB k hk
        omega
    | Match => exact hSt.elim
    | After => exact hSt.elim
  | some m =>
    cases st with
    | Before =>
      obtain ⟨hpost, hcontam, hflagpre, hany, hprim⟩ := hSt
      subst hpost
      simp only [step, transition, Inv, StateInv, maybeEmit]
      refine ⟨hGM, hIncPre, by simp [linesIncr], ?_, by simp, ?_, ?_, trivial, ?_, ?_⟩
      · intro l hl
        have := hPreB l hl
        omega
      · intro m' hm'
        cases hm'
        simp
      · intro k hk
        have := hPrimB k hk
        omega
      · intro p hp
        have := hPreB p hp
        omega
      · intro k hk
        have := hPrimB k hk
        omega
    | Match =>
      obtain ⟨hpost, hpre, hprim⟩ := hSt
      subst hpost
      have hm := hPendB m rfl
      simp only [step, transition, Inv, StateInv, maybeEmit]
      refine ⟨?_, by simp [linesIncr], by simp [linesIncr], by simp, by simp,
        ?_, ?_, trivial, by simp, fun h => h, by simp, ?_⟩
      · exact goodMatches_concat _ _ hGM
          ⟨hIncPre, by simp [linesIncr], hpre, by simp⟩ hprim
      · intro m' hm'
        cases hm'
        simp
      · rw [primaries_concat]
        intro k hk
        rcases List.mem_append.mp hk with hk | hk
        · have := hPrimB k hk
          omega
        · simp at hk
          subst hk
          omega
      · rw [primaries_concat]
        intro k hk
        rcases List.mem_append.mp hk with hk | hk
        · have := hPrimB k hk
          omega
        · simp at hk
          subst hk
          omega
    | After =>
      obtain ⟨hpre, hpost, hprim⟩ := hSt
      have hm := hPendB m rfl
      simp only [step, transition, Inv, StateInv, maybeEmit]
      refine ⟨?_, by simp [linesIncr], by simp [linesIncr], by simp, by simp,
        ?_, ?_, trivial, by simp, fun h => h, by simp, ?_⟩
      · exact goodMatches_concat _ _ hGM ⟨hIncPre, hIncPost, hpre, hpost⟩ hprim
      · intro m' hm'
        cases hm'
        simp
      · rw [primaries_concat]
        intro k hk
        rcases List.mem_append.mp hk with hk | hk
        · have := hPrimB k hk
          omega
        · simp at hk
          subst hk
          omega
      · rw [primaries_concat]
        intro k hk
        rcases List.mem_append.mp hk with hk | hk
        · have := hPrimB k hk
          omega
        · simp at hk
          subst hk
          omega

/-- Invariant preservation for a before-context sink call. -/
theorem inv_step_before (st : MatchState) (pre post : List Line) (pend : Option Line)
    (ms : List Match) (flag : Bool) (b n : Nat) (t : String) (rest : List Event)
    (hInv : Inv ⟨st, pre, post, pend, ms⟩ flag b (Event.contextBefore n t :: rest))
    (hb : b < n)
    (hany : rest.any isMatchLine = true) :
    Inv (step ⟨st, pre, post, pend, ms⟩ (.contextBefore n t)) false n rest := by
  obtain ⟨hGM, hIncPre, hIncPost, hPreB, hPostB, hPendB, hPrimB, hSt⟩ := hInv
  simp only [StateInv] at hSt
  cases pend with
  | none =>
    cases st with
    | Before =>
      obtain ⟨hpost, hflag⟩ := hSt
      subst hpost
      simp only [step, transition, Inv, StateInv, maybeEmit]
      refine ⟨hGM, ?_, by simp [linesIncr], ?_, by simp, ?_, ?_, trivial, trivial⟩
      · refine linesIncr_concat pre _ hIncPre ?_
        intro l hl
        have := hPreB l hl
        simp
        omega
      · intro l hl
        rcases List.mem_append.mp hl with hl | hl
        · have := hPreB l hl
          omega
        · simp at hl
          subst hl
          simp
      · intro m' hm'
        cases hm'
      · intro k hk
        have := hPrimB k hk
        omega
    | Match => exact hSt.elim
    | After => exact hSt.elim
  | some m =>
    cases st with
    | Before =>
      obtain ⟨hpost, hcontam, hflagpre, hany', hprim⟩ := hSt
      subst hpost
      have hm := hPendB m rfl
      simp only [step, transition, Inv, StateInv, maybeEmit]
      refine ⟨hGM, ?_, by simp [linesIncr], ?_, by simp, ?_, ?_, trivial, ?_,
        by simp, fun h => hany, hprim⟩
      · refine linesIncr_concat pre _ hIncPre ?_
        intro l hl
        have := hPreB l hl
        simp
        omega
      · intro l hl
        rcases List.mem_append.mp hl with hl | hl
        · have := hPreB l hl
          omega
        · simp at hl
          subst hl
          simp
      · intro m' hm'
        cases hm'
        omega
      · intro k hk
        have := hPrimB k hk
        omega
      · intro p hp
        rcases List.mem_append.mp hp with hp | hp
        · exact hcontam p hp
        · simp at hp
          subst hp
          show m.number < n
          omega
    | Match =>
      obtain ⟨hpost, hpre, hprim⟩ := hSt
      subst hpost
      have hm := hPendB m rfl
      simp only [step, transition, Inv, StateInv, maybeEmit]
      refine ⟨?_, by simp [linesIncr], by simp [linesIncr], by simp, by simp,
        ?_, ?_, trivial, trivial⟩
      · exact goodMatches_concat _ _ hGM
          ⟨hIncPre, by simp [linesIncr], hpre, by simp⟩ hprim
      · intro m' hm'
        cases hm'
      · rw [primaries_concat]
        intro k hk
        rcases List.mem_append.mp hk with hk | hk
        · have := hPrimB k hk
          omega
        · simp at hk
          subst hk
          omega
    | After =>
      obtain ⟨hpre, hpost, hprim⟩ := hSt
      have hm := hPendB m rfl
      simp only [step, transition, Inv, StateInv, maybeEmit]
      refine ⟨?_, by simp [linesIncr], by simp [linesIncr], by simp, by simp,
        ?_, ?_, trivial, trivial⟩
      · exact goodMatches_concat _ _ hGM ⟨hIncPre, hIncPost, hpre, hpost⟩ hprim
      · intro m' hm'
        cases hm'
      · rw [primaries_concat]
        intro k hk
        rcases List.mem_append.mp hk with hk | hk
        · have := hPrimB k hk
          omega
        · simp at hk
          subst hk
          omega

/-- Invariant preservation for an after-context sink call.  The stream
well-formedness guarantees the previous event was a match or
after-context event (`flag = true`). -/
theorem inv_step_after (st : MatchState) (pre post : List Line) (pend : Option Line)
    (ms : List Match) (flag : Bool) (b n : Nat) (t : String) (rest : List Event)
    (hInv : Inv ⟨st, pre, post, pend, ms⟩ flag b (Event.contextAfter n t :: rest))
    (hb : b < n)
    (hflag : flag = true) :
    Inv (step ⟨st, pre, post, pend, ms⟩ (.contextAfter n t)) true n rest := by
  obtain ⟨hGM, hIncPre, hIncPost, hPreB, hPostB, hPendB, hPrimB, hSt⟩ := hInv
  simp only [StateInv] at hSt
  cases pend with
  | none =>
    cases st with
    | Before =>
      obtain ⟨hpost, hflag'⟩ := hSt
      rw [hflag'] at hflag
      exact absurd hflag (by simp)
    | Match => exact hSt.elim
    | After => exact hSt.elim
  | some m =>
    cases st with
    | Before =>
      obtain ⟨hpost, hcontam, hflagpre, hany', hprim⟩ := hSt
      have hpre : pre = [] := hflagpre hflag
      subst hpost hpre
      have hm := hPendB m rfl
      simp only [step, transition, Inv, StateInv, maybeEmit]
      refine ⟨hGM, by simp [linesIncr], by simp [linesIncr], by simp, by simp,
        ?_, ?_, by simp, ?_, hprim⟩
      · intro m' hm'
        cases hm'
        omega
      · intro k hk
        have := hPrimB k hk
        omega
      · intro q hq
        simp at hq
        subst hq
        show m.number < n
        omega
    | Match =>
      obtain ⟨hpost, hpre, hprim⟩ := hSt
      subst hpost
      have hm := hPendB m rfl
      simp only [step, transition, Inv, StateInv, maybeEmit]
      refine ⟨hGM, hIncPre, by simp [linesIncr], ?_, by simp, ?_, ?_, hpre, ?_, hprim⟩
      · intro l hl
        have := hPreB l hl
        omega
      · intro m' hm'
        cases hm'
        omega
      · intro k hk
        have := hPrimB k hk
        omega
      · intro q hq
        simp at hq
        subst hq
        show m.number < n
        omega
    | After =>
      obtain ⟨hpre, hpost, hprim⟩ := hSt
      have hm := hPendB m rfl
      simp only [step, transition, Inv, StateInv, maybeEmit]
      refine ⟨hGM, hIncPre, ?_, ?_, ?_, ?_, ?_, hpre, ?_, hprim⟩
      · refine linesIncr_concat post _ hIncPost ?_
        intro l hl
        have := hPostB l hl
        simp
        omega
      · intro l hl
        have := hPreB l hl
        omega
      · intro l hl
        rcases List.mem_append.mp hl with hl | hl
        · have := hPostB l hl
          omega
        · simp at hl
          subst hl
          simp
      · intro m' hm'
        cases hm'
        omega
      · intro k hk
        have := hPrimB k hk
        omega
      · intro q hq
        rcases List.mem_append.mp hq with hq | hq
        · exact hpost q hq
        · simp at hq
          subst hq
          show m.number < n
          omega

/-- Main induction: from any invariant-satisfying collector state, folding
a well-formed remainder of the stream and collecting yields good matches. -/
theorem inv_fold (es : List Event) :
    ∀ (c : MatchCollector) (flag : Bool) (b : Nat),
    Inv c flag b es → eventsIncr es → (∀ e ∈ es, b < eventNum e) →
    afterScan flag es = true → beforesClosed es = true →
    (∀ e ∈ es, isOther e = false) →
    GoodMatches (collect (es.foldl step c)) := by
  induction es with
  | nil =>
    intro c flag b hInv _ _ _ _ _
    obtain ⟨st, pre, post, pend, ms⟩ := c
    exact collect_good st pre post pend ms flag b hInv
  | cons e rest ih =>
    intro c flag b hInv hIncr hlb hA hB hO
    have hIncr' : eventsIncr rest := hIncr.of_cons
    have hhead : ∀ e' ∈ rest, eventNum e < eventNum e' :=
      (List.pairwise_cons.mp hIncr).1
    have hb : b < eventNum e := hlb e (by simp)
    have hO' : ∀ e' ∈ rest, isOther e' = false :=
      fun e' he' => hO e' (List.mem_cons_of_mem _ he')
    obtain ⟨st, pre, post, pend, ms⟩ := c
    simp only [List.foldl_cons]
    cases e with
    | matchLine n t =>
      simp only [afterScan] at hA
      simp only [beforesClosed] at hB
      exact ih _ true n
        (inv_step_match st pre post pend ms flag b n t rest hInv hb)
        hIncr' (fun e' he' => hhead e' he') hA hB hO'
    | contextBefore n t =>
      simp only [afterScan] at hA
      simp only [beforesClosed, Bool.and_eq_true] at hB
      exact ih _ false n
        (inv_step_before st pre post pend ms flag b n t rest hInv hb hB.1)
        hIncr' (fun e' he' => hhead e' he') hA hB.2 hO'
    | contextAfter n t =>
      simp only [afterScan, Bool.and_eq_true] at hA
      simp only [beforesClosed] at hB
      exact ih _ true n
        (inv_step_after st pre post pend ms flag b n t rest hInv hb hA.1)
        hIncr' (fun e' he' => hhead e' he') hA.2 hB hO'
    | contextOther n t =>
      have := hO (.contextOther n t) (by simp)
      simp [isOther] at this

/-! ## Claim theorems (rewriter) -/

/-- C2: for every file and every ascending-by-line-number replacement list
whose line numbers all occur in the file, the rewriter succeeds and
produces a file in which every line not referenced by the list is
byte-identical to the original line and every referenced line is wholly
replaced by that replacement's text. -/
theorem apply_rewrites_exactly_referenced_lines
    (fileLines : List String) (repls : List MatchReplacement)
    (hasc : repls.Pairwise
      (fun a b => a.search_match.line.number < b.search_match.line.number))
    (hin : ∀ r ∈ repls, 1 ≤ r.search_match.line.number ∧
      r.search_match.line.number ≤ fileLines.length) :
    ∃ out, apply fileLines repls = some out ∧ out.length = fileLines.length ∧
      ∀ i < fileLines.length,
        out.getD i "" = (lookupRepl repls (i + 1)).getD (fileLines.getD i "") := by
  obtain ⟨out, h1, h2, h3⟩ := applyLoop_spec fileLines 0 repls hasc
    (by intro r hr; have := hin r hr; omega)
  refine ⟨out, h1, h2, ?_⟩
  intro i hi
  have hrec := h3 i hi
  have harith : 0 + 1 + i = i + 1 := by omega
  rw [harith] at hrec
  exact hrec

theorem apply_rewrites_exactly_referenced_lines_witness :
    ∃ out,
      apply ["a\n", "b\n", "c\n"] [⟨⟨⟨2, "b\n"⟩, [], []⟩, "X\n"⟩] = some out ∧
      out.length = (["a\n", "b\n", "c\n"] : List String).length ∧
      ∀ i < (["a\n", "b\n", "c\n"] : List String).length,
        out.getD i "" = (lookupRepl [⟨⟨⟨2, "b\n"⟩, [], []⟩, "X\n"⟩] (i + 1)).getD
          ((["a\n", "b\n", "c\n"] : List String).getD i "") :=
  apply_rewrites_exactly_referenced_lines ["a\n", "b\n", "c\n"]
    [⟨⟨⟨2, "b\n"⟩, [], []⟩, "X\n"⟩] (by decide) (by decide)

/-- C3: a replacement list referencing a line number beyond the file's last
line makes the rewriter reach end-of-file with a non-empty remaining list,
so it hits the `reached EOF with remaining replacements` panic (a fatal
defect, not a recoverable error) before the rename, and the original file
is left unmodified. -/
theorem apply_out_of_range_replacement_panics_without_rename
    (fileLines : List String) (repls : List MatchReplacement)
    (h : ∃ r ∈ repls, fileLines.length < r.search_match.line.number) :
    apply fileLines repls = none ∧ fileAfterApply fileLines repls = fileLines := by
  obtain ⟨r, hr, hgt⟩ := h
  have happ : apply fileLines repls = none := by
    cases happly : apply fileLines repls with
    | none => rfl
    | some out =>
      have := applyLoop_upper fileLines 0 repls out happly r hr
      omega
  exact ⟨happ, by simp [fileAfterApply, happ]⟩

theorem apply_out_of_range_replacement_panics_without_rename_witness :
    apply ["a\n"] [⟨⟨⟨2, "b\n"⟩, [], []⟩, "X\n"⟩] = none ∧
    fileAfterApply ["a\n"] [⟨⟨⟨2, "b\n"⟩, [], []⟩, "X\n"⟩] = ["a\n"] :=
  apply_out_of_range_replacement_panics_without_rename ["a\n"]
    [⟨⟨⟨2, "b\n"⟩, [], []⟩, "X\n"⟩] (by decide)

/-- C8: whenever the rewriter succeeds, the rewritten file has exactly as
many chunks as the original, and — since each original chunk and each
replacement text is a single newline-terminated physical line — the same
number of physical lines. -/
theorem apply_preserves_line_count
    (fileLines : List String) (repls : List MatchReplacement) (out : List String)
    (h : apply fileLines repls = some out) :
    out.length = fileLines.length ∧
    ((∀ l ∈ fileLines, isSingleLine l = true) →
      (∀ r ∈ repls, isSingleLine r.replacement = true) →
      newlineCount (fileContent out) = newlineCount (fileContent fileLines)) := by
  have hlen := applyLoop_length fileLines 0 repls out h
  refine ⟨hlen, ?_⟩
  intro hf hr
  have hone : ∀ x ∈ out, newlineCount x = 1 := by
    intro x hx
    rcases applyLoop_mem fileLines 0 repls out h x hx with hmem | ⟨r, hrr, rfl⟩
    · have := hf x hmem
      simp [isSingleLine] at this
      exact this.2
    · have := hr r hrr
      simp [isSingleLine] at this
      exact this.2
  have hone' : ∀ x ∈ fileLines, newlineCount x = 1 := by
    intro x hx
    have := hf x hx
    simp [isSingleLine] at this
    exact this.2
  rw [newlineCount_fileContent, newlineCount_fileContent,
    sum_map_eq_length out newlineCount hone,
    sum_map_eq_length fileLines newlineCount hone', hlen]

theorem apply_preserves_line_count_witness :
    (["Z\n", "b\n"] : List String).length = (["a\n", "b\n"] : List String).length ∧
    ((∀ l ∈ (["a\n", "b\n"] : List String), isSingleLine l = true) →
      (∀ r ∈ [MatchReplacement.mk ⟨⟨1, "a\n"⟩, [], []⟩ "Z\n"],
        isSingleLine r.replacement = true) →
      newlineCount (fileContent ["Z\n", "b\n"]) =
        newlineCount (fileContent ["a\n", "b\n"])) :=
  apply_preserves_line_count ["a\n", "b\n"]
    [MatchReplacement.mk ⟨⟨1, "a\n"⟩, [], []⟩ "Z\n"] ["Z\n", "b\n"] (by decide)

/-- C9: applying an empty replacement list copies every line unchanged:
the resulting file is byte-for-byte identical to the original. -/
theorem apply_empty_replacements_is_identity (fileLines : List String) :
    apply fileLines [] = some fileLines ∧
    fileAfterApply fileLines [] = fileLines ∧
    fileContent (fileAfterApply fileLines []) = fileContent fileLines := by
  have h : apply fileLines [] = some fileLines := applyLoop_nil fileLines 0
  exact ⟨h, by simp [fileAfterApply, h], by simp [fileAfterApply, h]⟩

/-! ## Claim theorems (collector bug, decision policy, orchestrator) -/

/-- C1 (failing evaluation): on the event stream of three adjacent match
lines 5, 6, 7 the collector emits records for lines 5 and 7 only — the
match on line 6 is silently dropped, because after the second `MatchLine`
the collector's state is `Before` (the emitting arm of `transition` never
assigns the next state), not `Match` as the spec's transition table
requires, and the third `MatchLine` then overwrites the pending match
without emitting it. -/
theorem collector_drops_middle_of_three_adjacent_match_lines :
    (runCollector [.matchLine 5 "e\n", .matchLine 6 "f\n", .matchLine 7 "g\n"]).map
        (fun m => m.line.number) = [5, 7] ∧
    ([Event.matchLine 5 "e\n", Event.matchLine 6 "f\n"].foldl step
        MatchCollector.new).state = MatchState.Before := by
  decide

/-- C5: in the interactive policy, an `a` response sets the file-local
decision to Accept and every later `decide` call returns Accept leaving
the channel untouched (no prompting); `d` symmetrically forces Ignore;
`reset_local_decision` clears the override, and `consume_matches` resets
it before processing a file's matches, so a leftover override from the
previous file never influences the next file. -/
theorem interactive_scope_override_and_per_file_reset :
    (∀ rest : List String,
      Fnr.decide ⟨true, none, none⟩ ("a" :: rest) =
        .ok (.Accept, ⟨true, none, some .Accept⟩, rest)) ∧
    (∀ rest : List String,
      Fnr.decide ⟨true, none, none⟩ ("d" :: rest) =
        .ok (.Ignore, ⟨true, none, some .Ignore⟩, rest)) ∧
    (∀ input : List String,
      Fnr.decide ⟨true, none, some .Accept⟩ input =
        .ok (.Accept, ⟨true, none, some .Accept⟩, input)) ∧
    (∀ input : List String,
      Fnr.decide ⟨true, none, some .Ignore⟩ input =
        .ok (.Ignore, ⟨true, none, some .Ignore⟩, input)) ∧
    (∀ st : ReplacementDecider, (resetLocalDecision st).local_decision = none) ∧
    (∀ (f : String → String) (st : ReplacementDecider) (fileLines : List String)
        (ms : List Match) (input : List String), ms ≠ [] →
      consumeMatches f st fileLines ms input =
        consumeMatches f (resetLocalDecision st) fileLines ms input) := by
  refine ⟨fun rest => rfl, fun rest => rfl, fun input => rfl, fun input => rfl,
    fun st => rfl, ?_⟩
  intro f st fileLines ms input hms
  cases ms with
  | nil => exact absurd rfl hms
  | cons m ms => rfl

theorem interactive_scope_override_and_per_file_reset_witness :
    consumeMatches (fun s => s) ⟨true, none, some .Accept⟩ ["x\n"]
        [⟨⟨1, "x\n"⟩, [], []⟩] ["n"] =
      consumeMatches (fun s => s) (resetLocalDecision ⟨true, none, some .Accept⟩)
        ["x\n"] [⟨⟨1, "x\n"⟩, [], []⟩] ["n"] :=
  interactive_scope_override_and_per_file_reset.2.2.2.2.2
    (fun s => s) ⟨true, none, some .Accept⟩ ["x\n"]
    [⟨⟨1, "x\n"⟩, [], []⟩] ["n"] (by decide)

/-- C6: when the decision for a match is Terminate, the match loop stops
immediately with the halt signal `false`, the file keeps its original
content (the rewriter is never invoked), and the already-accumulated
replacement list is discarded. -/
theorem terminate_halts_without_applying
    (f : String → String) (fileLines : List String) (st : ReplacementDecider)
    (m : Match) (ms : List Match) (input : List String)
    (acc : List MatchReplacement) (st' : ReplacementDecider) (input' : List String)
    (h : Fnr.decide st input = .ok (.Terminate, st', input')) :
    consumeLoop f fileLines st (m :: ms) input acc =
      .ok (false, fileLines, st', input') := by
  simp [consumeLoop, h]

theorem terminate_halts_without_applying_witness :
    consumeLoop (fun s => s) ["x\n"] ⟨true, none, none⟩
        [⟨⟨1, "x\n"⟩, [], []⟩] ["q"] [⟨⟨⟨1, "x\n"⟩, [], []⟩, "y\n"⟩] =
      .ok (false, ["x\n"], ⟨true, none, none⟩, []) :=
  terminate_halts_without_applying (fun s => s) ["x\n"] ⟨true, none, none⟩
    ⟨⟨1, "x\n"⟩, [], []⟩ [] ["q"] [⟨⟨⟨1, "x\n"⟩, [], []⟩, "y\n"⟩]
    ⟨true, none, none⟩ [] rfl

/-- C7 (failing evaluation): when the interactive channel is exhausted
(end-of-file on stdin), `read_input` and hence `decide` abort with the
`text_io::read!` panic — a failure — instead of behaving as if Terminate
had been returned; `consume_matches` on a non-empty match list propagates
that panic rather than returning the clean halt signal. -/
theorem eof_on_prompt_panics_instead_of_terminate :
    readInput [] = .error .eofPanic ∧
    Fnr.decide ⟨true, none, none⟩ [] = .error .eofPanic ∧
    (∀ (f : String → String) (fileLines : List String) (m : Match)
        (ms : List Match),
      consumeMatches f ⟨true, none, none⟩ fileLines (m :: ms) [] =
        .error .eofPanic) :=
  ⟨rfl, rfl, fun f fileLines m ms => rfl⟩

/-- C10: an Edit decision answered with a non-empty line `l` records a
replacement whose text is exactly `l` with one `\n` appended; when `l`
itself contains no newline, the stored text therefore contains exactly one
newline, at its end — one complete physical line. -/
theorem edit_decision_appends_single_newline
    (f : String → String) (fileLines : List String) (st : ReplacementDecider)
    (m : Match) (ms : List Match) (input : List String)
    (acc : List MatchReplacement) (st' : ReplacementDecider)
    (l : String) (input'' : List String)
    (hd : Fnr.decide st input = .ok (.Edit, st', l :: input''))
    (hl : l ≠ "") :
    consumeLoop f fileLines st (m :: ms) input acc =
      consumeLoop f fileLines st' ms input'' (acc ++ [⟨m, l ++ "\n"⟩]) ∧
    (l ++ "\n").toList = l.toList ++ ['\n'] ∧
    (newlineCount l = 0 → newlineCount (l ++ "\n") = 1) := by
  refine ⟨?_, ?_, ?_⟩
  · simp [consumeLoop, hd, readInput, hl]
  · simp [String.toList]
  · intro h0
    rw [newlineCount_append, h0]
    decide

theorem edit_decision_appends_single_newline_witness :
    consumeLoop (fun s => s) ["x\n"] ⟨true, none, none⟩
        [⟨⟨1, "x\n"⟩, [], []⟩] ["e", "new text"] [] =
      consumeLoop (fun s => s) ["x\n"] ⟨true, none, none⟩ [] []
        ([] ++ [⟨⟨⟨1, "x\n"⟩, [], []⟩, "new text" ++ "\n"⟩]) ∧
    ("new text" ++ "\n").toList = "new text".toList ++ ['\n'] ∧
    (newlineCount "new text" = 0 → newlineCount ("new text" ++ "\n") = 1) :=
  edit_decision_appends_single_newline (fun s => s) ["x\n"] ⟨true, none, none⟩
    ⟨⟨1, "x\n"⟩, [], []⟩ [] ["e", "new text"] [] ⟨true, none, none⟩
    "new text" [] rfl (by decide)

/-- C4: for every well-formed per-file event stream (as the grep searcher
emits it), every Match record produced by the collector has strictly
increasing pre-context line numbers all below the primary line, strictly
increasing post-context line numbers all above it, and the primary line
numbers of the records are strictly increasing — so no two records of the
same file share a primary line number. -/
theorem collector_output_invariant (es : List Event) (h : WfStream es) :
    GoodMatches (runCollector es) := by
  obtain ⟨hIncr, hpos, hA, hB, hO⟩ := h
  have hInv0 : Inv MatchCollector.new false 0 es := by
    refine ⟨?_, ?_, ?_, ?_, ?_, ?_, ?_, ?_⟩ <;>
      simp [MatchCollector.new, GoodMatches, linesIncr, primaries, StateInv]
  exact inv_fold es MatchCollector.new false 0 hInv0 hIncr hpos hA hB hO

theorem collector_output_invariant_witness :
    WfStream [Event.contextBefore 2 "b\n", .matchLine 3 "m\n",
      .contextAfter 4 "a\n", .contextBefore 7 "c\n", .matchLine 8 "p\n",
      .contextAfter 9 "d\n"] ∧
    GoodMatches (runCollector [Event.contextBefore 2 "b\n", .matchLine 3 "m\n",
      .contextAfter 4 "a\n", .contextBefore 7 "c\n", .matchLine 8 "p\n",
      .contextAfter 9 "d\n"]) :=
  ⟨by decide, collector_output_invariant _ (by decide)⟩

end Fnr
